import Mathlib

/-!
# MCore::AttributeInt32 and ScriptCanvas::GraphVariableManagerRequests

A shallow embedding of

* `dev/Gems/EMotionFX/Code/MCore/Source/AttributeInt32.h`
* `dev/Gems/ScriptCanvas/Code/Include/ScriptCanvas/Variable/VariableBus.h`

An `int32` is an `Int` together with the range predicate `IsInt32`; the object
representation of an `int32` (what `&streamValue` points at) is a list of four
bytes at increasing addresses.  The host byte order is a parameter `host` of
every function that touches memory.  A finite `float` is the rational number
it stands for, and `float` arithmetic rounds the exact result to binary32.
Member functions take the object as an explicit argument and return the new
object next to their result.
-/

namespace MCore

/-! ## Fixed-width integers and their object representation -/

/-- The byte orders of `MCore::Endian::EEndianType`. -/
inductive EEndianType
  | ENDIAN_LITTLE
  | ENDIAN_BIG
  deriving DecidableEq, Repr

/-- Smallest value of the C++ type `int32`. -/
def INT32_MIN : Int := -2147483648

/-- Largest value of the C++ type `int32`. -/
def INT32_MAX : Int := 2147483647

/-- The values an `int32` can hold. -/
def IsInt32 (v : Int) : Prop := INT32_MIN ≤ v ∧ v ≤ INT32_MAX

instance (v : Int) : Decidable (IsInt32 v) := by
  unfold IsInt32
  infer_instance

/-- Reading a 32 bit pattern as a two-complement `int32`. -/
def toInt32 (n : Int) : Int := (n + 2147483648) % 4294967296 - 2147483648

/-- The size `sizeof(int32)` in bytes. -/
def sizeofInt32 : Nat := 4

/-- The four bytes of an `int32` object, lowest address first, on a machine
whose byte order is `host`. -/
def int32ToBytes (host : EEndianType) (v : Int) : List Nat :=
  let u := (v % 4294967296).toNat
  match host with
  | .ENDIAN_LITTLE => [u % 256, u / 256 % 256, u / 65536 % 256, u / 16777216 % 256]
  | .ENDIAN_BIG => [u / 16777216 % 256, u / 65536 % 256, u / 256 % 256, u % 256]

/-- The `int32` held by four bytes of memory, lowest address first, on a
machine whose byte order is `host`. -/
def int32OfBytes (host : EEndianType) (cell : List Nat) : Int :=
  let b : Nat → Int := fun i => ((cell.getD i 0 % 256 : Nat) : Int)
  match host with
  | .ENDIAN_LITTLE => toInt32 (b 0 + 256 * b 1 + 65536 * b 2 + 16777216 * b 3)
  | .ENDIAN_BIG => toInt32 (b 3 + 256 * b 2 + 65536 * b 1 + 16777216 * b 0)

/-! ## Single precision arithmetic

The C++ type `float` is IEEE-754 binary32.  A finite `float` is the rational
number it stands for; an arithmetic result is the exact result rounded to the
nearest `float`, ties to the one with an even significand. -/

/-- The loop of `floorLog2`: halves `n` until it is below 2 and counts the
steps, at most `fuel` of them. -/
def floorLog2Loop : Nat → Nat → Nat
  | 0, _ => 0
  | fuel + 1, n => if 2 ≤ n then floorLog2Loop fuel (n / 2) + 1 else 0

/-- The binary logarithm of a positive natural number, rounded down. -/
def floorLog2 (n : Nat) : Nat := floorLog2Loop n n

/-- The binary exponent of a nonzero rational `x`: the integer `e` with
`2 ^ e ≤ |x| < 2 ^ (e + 1)`. -/
def binaryExponent (x : ℚ) : Int :=
  let e0 : Int := (floorLog2 x.num.natAbs : Int) - (floorLog2 x.den : Int)
  if (2 : ℚ) ^ e0 ≤ |x| then e0 else e0 - 1

/-- Rounding a rational to the nearest integer, a tie going to the even one. -/
def roundHalfEven (q : ℚ) : Int :=
  if q - ⌊q⌋ < 1 / 2 then ⌊q⌋
  else if 1 / 2 < q - ⌊q⌋ then ⌊q⌋ + 1
  else if ⌊q⌋ % 2 = 0 then ⌊q⌋
  else ⌊q⌋ + 1

/-- Rounding to `float`, round to nearest, ties to even: the significand has
24 bits, so the spacing of the floats around `x` is `2 ^ (e - 23)` for the
binary exponent `e` of `x`, and `e` is at least -126 (below that the floats
are subnormal, with spacing `2 ^ (-149)`).  The exponent has no upper limit
here: beyond the largest `float` the hardware gives an infinity, and the one
use of this function, the cast in `Scale`, is undefined there as it is for
every value outside the `int32` range. -/
def roundF32 (x : ℚ) : ℚ :=
  if x = 0 then 0
  else
    let e := max (binaryExponent x) (-126)
    let ulp : ℚ := 2 ^ (e - 23)
    (roundHalfEven (x / ulp) : ℚ) * ulp

/-- The conversion of a floating value to an integer type: the fractional part
is discarded, which is truncation toward zero. -/
def truncate (q : ℚ) : Int := if 0 ≤ q then ⌊q⌋ else ⌈q⌉

/-! ## Collaborators of the attribute: endian codec and stream -/

namespace Endian

/-- Modelled from the spec: `Endian::ConvertSignedInt32` lives in `Endian.h`,
which is not among the sources.  Section 4.2: it mutates a fixed-width integer
in place, swapping byte order if the stream endian type differs from host
native order.  The integer is given by its four bytes in memory. -/
def ConvertSignedInt32 (host : EEndianType) (value : List Nat)
    (sourceEndianType : EEndianType) : List Nat :=
  if sourceEndianType = host then value else value.reverse

/-- Modelled from the spec: `Endian::ConvertSignedInt32To` lives in `Endian.h`,
which is not among the sources.  Section 4.1 (`WriteData`): it converts the
in-memory value to the requested target endianness, that is, it swaps the byte
order if the target differs from host native order. -/
def ConvertSignedInt32To (host : EEndianType) (value : List Nat)
    (targetEndianType : EEndianType) : List Nat :=
  if targetEndianType = host then value else value.reverse

end Endian

/-- Modelled from the spec: `MCore::Stream` lives in `Stream.h`, which is not
among the sources.  Section 4.3: `Read(buffer, nBytes) -> bytesRead` and
`Write(buffer, nBytes) -> bytesWritten`.  A stream is any state type `σ` with
these two operations; `Read` receives the current content of the destination
buffer and returns the byte count, the buffer afterwards and the next stream
state, `Write` receives the bytes at the source pointer and returns the byte
count and the next stream state. -/
structure Stream (σ : Type) where
  /-- Operation `Read(buffer, nBytes)`. -/
  Read : σ → List Nat → Nat → Nat × List Nat × σ
  /-- Operation `Write(buffer, nBytes)`. -/
  Write : σ → List Nat → Nat → Nat × σ

/-- Modelled from the spec: a concrete stream over a byte buffer (section 8,
"through a byte buffer") that follows the contract of section 4.3.  `bytes` is
the content, `readPos` the read cursor, `capacity` the most bytes the buffer
can hold. -/
structure ByteBuffer where
  bytes : List Nat
  readPos : Nat
  capacity : Nat
  deriving DecidableEq, Repr

namespace ByteBuffer

/-- Copies up to `nBytes` unread bytes to the front of `buffer` and returns how
many were copied; fewer than `nBytes` when the buffer runs out. -/
def Read (s : ByteBuffer) (buffer : List Nat) (nBytes : Nat) : Nat × List Nat × ByteBuffer :=
  let got := (s.bytes.drop s.readPos).take nBytes
  (got.length, got ++ buffer.drop got.length, { s with readPos := s.readPos + got.length })

/-- Appends up to `nBytes` bytes of `data` and returns how many were appended;
fewer than `nBytes` when the capacity is reached. -/
def Write (s : ByteBuffer) (data : List Nat) (nBytes : Nat) : Nat × ByteBuffer :=
  let put := (data.take nBytes).take (s.capacity - s.bytes.length)
  (put.length, { s with bytes := s.bytes ++ put })

/-- The byte buffer as a `Stream`. -/
def stream : Stream ByteBuffer := ⟨ByteBuffer.Read, ByteBuffer.Write⟩

end ByteBuffer

end MCore

/-! ## Collaborators of the attribute: text conversion -/

namespace AzFramework.StringFunc

/-- The value of a decimal digit character, `c - 48`. -/
def digitValue (c : Char) : Nat := c.toNat - 48

/-- Reads a run of decimal digits, most significant first, on top of `acc`;
`none` at the first character that is not a digit. -/
def scanDigits : List Char → Nat → Option Nat
  | [], acc => some acc
  | c :: cs, acc => if c.isDigit then scanDigits cs (acc * 10 + digitValue c) else none

/-- Reads a whole text as a decimal integer: an optional leading sign, plus or
minus, then one or more digits and nothing else. -/
def parseDecimal : List Char → Option Int
  | [] => none
  | c :: cs =>
    if c = '-' then
      if cs = [] then none else (scanDigits cs 0).map fun (n : Nat) => -(n : Int)
    else if c = '+' then
      if cs = [] then none else (scanDigits cs 0).map fun (n : Nat) => (n : Int)
    else
      (scanDigits (c :: cs) 0).map fun (n : Nat) => (n : Int)

/-- Modelled from the spec: `AzFramework::StringFunc::LooksLikeInt(in, pInt)`
lives in `StringFunc.h`, which is not among the sources.  Section 4.1
(`InitFromString`): the text must look like an integer, "leading sign, digits
only, no trailing garbage", the sign being optional; on success the integer is
stored through `pInt`, on failure the pointee is left unchanged.  `pInt`
points at a 32 bit `int`, so the store keeps the low 32 bits of the integer.
`text` is the C string at `in`, the second argument is the pointee before the
call, the second component of the result the pointee afterwards. -/
def LooksLikeInt (text : String) (pInt : Int) : Bool × Int :=
  match parseDecimal text.data with
  | some n => (true, MCore.toInt32 n)
  | none => (false, pInt)

/-- The number a run of decimal digits denotes, most significant digit first. -/
def decimalValue (digits : List Char) : Nat :=
  Nat.ofDigits 10 (digits.reverse.map digitValue)

/-- The grammar of integer text: `text` is a run of one or more decimal digits
with an optional leading sign, plus or minus, and nothing else, and `n` is the
integer it denotes. -/
def DenotesInt (text : String) (n : Int) : Prop :=
  ∃ digits : List Char, digits ≠ [] ∧ (∀ c ∈ digits, c.isDigit = true) ∧
    ((text.data = digits ∧ n = (decimalValue digits : Int)) ∨
      (text.data = '-' :: digits ∧ n = -(decimalValue digits : Int)) ∨
      (text.data = '+' :: digits ∧ n = (decimalValue digits : Int)))

/-- A well-formed decimal integer: text that denotes some integer. -/
def WellFormedInt (text : String) : Prop := ∃ n : Int, DenotesInt text n

/-- The canonical decimal text of `n`: a text of the grammar that denotes `n`,
without leading zeros, and with the minus sign only in front of a negative
number. -/
def CanonicalInt (text : String) (n : Int) : Prop :=
  ∃ digits : List Char, digits ≠ [] ∧ (∀ c ∈ digits, c.isDigit = true) ∧
    (digits.head? = some '0' → digits = ['0']) ∧
    ((text.data = digits ∧ n = (decimalValue digits : Int)) ∨
      (text.data = '-' :: digits ∧ n = -(decimalValue digits : Int) ∧ n < 0))

end AzFramework.StringFunc

namespace AZStd

/-- The NUL character that ends a C string. -/
def NUL : Char := Char.ofNat 0

/-- Member `c_str()` of `AZStd::string`, as the callee sees it through the
`const char*`: the characters of the string before its first NUL. -/
def c_str (s : String) : String := ⟨s.data.takeWhile fun c => c ≠ NUL⟩

/-- Modelled from the spec: `AZStd::string::format("%d", value)` lives in
`AzCore`, which is not among the sources.  Section 6: the textual form is the
decimal signed integer with an optional leading minus sign, no separators and
no padding, which is what the `printf` conversion `%d` produces. -/
def formatD (value : Int) : String := toString value

end AZStd

namespace MCore

/-! ## The attribute -/

/-- The base class `Attribute`, as far as `AttributeInt32.h` uses it: the type
id handed to the base constructor, returned by `GetType()`. -/
structure Attribute where
  mTypeID : Nat
  deriving DecidableEq, Repr

/-- Member `Attribute::GetType()`. -/
def Attribute.GetType (self : Attribute) : Nat := self.mTypeID

/-- The class `AttributeInt32 : public Attribute` with its one data member
`int32 mValue`. -/
structure AttributeInt32 extends Attribute where
  mValue : Int
  deriving DecidableEq, Repr

namespace AttributeInt32

/-- The enumerator `TYPE_ID = 0x00000002`. -/
def TYPE_ID : Nat := 0x00000002

/-- Constructor `AttributeInt32() : Attribute(TYPE_ID), mValue(0)`. -/
def ctor0 : AttributeInt32 := { mTypeID := TYPE_ID, mValue := 0 }

/-- Constructor `AttributeInt32(int32 value) : Attribute(TYPE_ID), mValue(value)`. -/
def ctor (value : Int) : AttributeInt32 := { mTypeID := TYPE_ID, mValue := value }

/-- Member `GetType()`, inherited from the base class. -/
def GetType (self : AttributeInt32) : Nat := self.toAttribute.GetType

/-- Member `GetValue()`: `return mValue`. -/
def GetValue (self : AttributeInt32) : Int := self.mValue

/-- Member `SetValue(value)`: `mValue = value`. -/
def SetValue (self : AttributeInt32) (value : Int) : AttributeInt32 :=
  { self with mValue := value }

/-- Member `GetRawDataSize()`: `return sizeof(int32)`. -/
def GetRawDataSize (_self : AttributeInt32) : Nat := sizeofInt32

/-- Member `GetDataSize()`: `return sizeof(int32)`. -/
def GetDataSize (_self : AttributeInt32) : Nat := sizeofInt32

/-- Member `InitFrom(other)`.  `other` is the object behind the base class
pointer as the `static_cast` views it: its type id and the storage read as
`mValue`.  Returns the result and the target afterwards; `other` is `const`. -/
def InitFrom (self other : AttributeInt32) : Bool × AttributeInt32 :=
  if other.GetType ≠ TYPE_ID then
    (false, self)
  else
    (true, { self with mValue := other.GetValue })

/-- Member `InitFromString(valueString)`:
`return LooksLikeInt(valueString.c_str(), &mValue)`.  Returns the result and
the attribute afterwards. -/
def InitFromString (self : AttributeInt32) (valueString : String) : Bool × AttributeInt32 :=
  let r := AzFramework.StringFunc.LooksLikeInt (AZStd.c_str valueString) self.mValue
  (r.1, { self with mValue := r.2 })

/-- Member `ConvertToString(outString) const`:
`outString = format("%d", mValue); return true`.  Returns the result and
`outString` afterwards. -/
def ConvertToString (self : AttributeInt32) (_outString : String) : Bool × String :=
  (true, AZStd.formatD self.mValue)

/-- Member `Scale(scaleFactor)`: `mValue = (int32)(mValue * scaleFactor)`.
`scaleFactor` is the value of the finite `float` argument.  The usual
arithmetic conversions turn `mValue` into a `float`, the product is evaluated
in `float`, and the cast truncates toward zero; the cast is undefined when the
truncated value is not an `int32`, which is the result `none` (an infinite or
NaN factor always ends there and is left out).  Otherwise the result is the
attribute afterwards. -/
def Scale (self : AttributeInt32) (scaleFactor : ℚ) : Option AttributeInt32 :=
  let product := roundF32 (roundF32 (self.mValue : ℚ) * scaleFactor)
  if IsInt32 (truncate product) then
    some { self with mValue := truncate product }
  else
    none

/-- Member `ReadData(stream, streamEndianType, version)`.  `uninit` is the
content of the uninitialised local `int32 streamValue` before the read; after
the read the local is the first `sizeof(int32)` bytes of the buffer.
Returns the result, the attribute afterwards and the stream afterwards. -/
def ReadData {σ : Type} (host : EEndianType) (ops : Stream σ) (self : AttributeInt32)
    (stream : σ) (uninit : List Nat) (streamEndianType : EEndianType) (_version : Nat) :
    Bool × AttributeInt32 × σ :=
  let r := ops.Read stream uninit sizeofInt32
  if r.1 = 0 then
    (false, self, r.2.2)
  else
    let streamValue := Endian.ConvertSignedInt32 host (r.2.1.take sizeofInt32) streamEndianType
    (true, { self with mValue := int32OfBytes host streamValue }, r.2.2)

/-- Member `WriteData(stream, targetEndianType) const`.  Returns the result and
the stream afterwards. -/
def WriteData {σ : Type} (host : EEndianType) (ops : Stream σ) (self : AttributeInt32)
    (stream : σ) (targetEndianType : EEndianType) : Bool × σ :=
  let streamValue := Endian.ConvertSignedInt32To host (int32ToBytes host self.mValue) targetEndianType
  let r := ops.Write stream streamValue sizeofInt32
  if r.1 = 0 then
    (false, r.2)
  else
    (true, r.2)

end AttributeInt32

/-- The heap the factory allocates from: the live attributes, the address of
an attribute being its index. -/
structure Heap where
  objects : List AttributeInt32
  deriving DecidableEq, Repr

/-- Calls `GetType()` through the pointer `p`; `none` when nothing lives there. -/
def Heap.GetType (heap : Heap) (p : Nat) : Option Nat :=
  (heap.objects[p]?).map AttributeInt32.GetType

/-- Calls `GetValue()` through the pointer `p`; `none` when nothing lives there. -/
def Heap.GetValue (heap : Heap) (p : Nat) : Option Int :=
  (heap.objects[p]?).map AttributeInt32.GetValue

/-- Calls `SetValue(value)` through the pointer `p`: the object at `p` is
replaced by the object after the call, every other object stays. -/
def Heap.SetValue (heap : Heap) (p : Nat) (value : Int) : Heap :=
  match heap.objects[p]? with
  | some self => { objects := heap.objects.set p (self.SetValue value) }
  | none => heap

namespace AttributeInt32

/-- Modelled from the spec: `AttributeInt32::Create(value)` is declared in the
header and defined in `AttributeInt32.cpp`, which is not among the sources.
Section 3: the factory function heap-allocates a fresh instance of the
concrete kind, here built by the constructor `AttributeInt32(int32 value)`.
Returns the heap afterwards and the address of the new instance. -/
def Create (heap : Heap) (value : Int) : Heap × Nat :=
  ({ objects := heap.objects ++ [ctor value] }, heap.objects.length)

/-- Member `Clone() const`: `return AttributeInt32::Create(mValue)`, called
through the pointer `this`; `none` when nothing lives there. -/
def Clone (heap : Heap) (this : Nat) : Option (Heap × Nat) :=
  match heap.objects[this]? with
  | some self => some (Create heap self.mValue)
  | none => none

end AttributeInt32

end MCore

namespace ScriptCanvas

/-- The number of values of `AZStd::size_t`, 64 bits wide. -/
def SIZE_T_MODULUS : Nat := 18446744073709551616

/-- The pure virtual members of `class GraphVariableManagerRequests` that the
range templates call.  A handler is a state type `η` with these operations,
each returning its result and the handler state afterwards.  `VariableId`, the
name and datum pair `Pair` and the outcome type `Outcome` are declared in
headers that are not among the sources and are type parameters. -/
structure GraphVariableManagerRequests (VariableId Pair Outcome η : Type) where
  /-- Member `AddVariablePair(keyValuePair)`. -/
  AddVariablePair : η → Pair → Outcome × η
  /-- Member `RemoveVariable(variableId)`. -/
  RemoveVariable : η → VariableId → Bool × η

namespace GraphVariableManagerRequests

variable {VariableId Pair Outcome η : Type}

/-- The loop `for (; first != last; ++first)` of `RemoveVariables`, the range
`[first, last)` being the list of its elements:
`removedVariableCount += RemoveVariable(*first) ? 1 : 0` in `size_t`. -/
def RemoveVariables.loop (self : GraphVariableManagerRequests VariableId Pair Outcome η) :
    List VariableId → η → Nat → Nat × η
  | [], handler, removedVariableCount => (removedVariableCount, handler)
  | first :: rest, handler, removedVariableCount =>
    let r := self.RemoveVariable handler first
    RemoveVariables.loop self rest r.2
      ((removedVariableCount + (if r.1 then 1 else 0)) % SIZE_T_MODULUS)

/-- Member template `RemoveVariables(first, last)`.  Returns the count and the
handler state afterwards. -/
def RemoveVariables (self : GraphVariableManagerRequests VariableId Pair Outcome η)
    (handler : η) (range : List VariableId) : Nat × η :=
  RemoveVariables.loop self range handler 0

/-- The call sequence `RemoveVariables` is measured against: `RemoveVariable`
called once per element of the range, in range order, each call on the handler
state the call before it left.  Returns the results of the calls in order and the handler state after the last
call. -/
def removeEach (self : GraphVariableManagerRequests VariableId Pair Outcome η) :
    η → List VariableId → List Bool × η
  | handler, [] => ([], handler)
  | handler, first :: rest =>
    let r := self.RemoveVariable handler first
    let t := removeEach self r.2 rest
    (r.1 :: t.1, t.2)

/-- The loop `for (; first != last; ++first)` of `AddVariables`, the range
`[first, last)` being the list of its elements:
`addVariableOutcomes.push_back(AddVariablePair(*first))`. -/
def AddVariables.loop (self : GraphVariableManagerRequests VariableId Pair Outcome η) :
    List Pair → η → List Outcome → List Outcome × η
  | [], handler, addVariableOutcomes => (addVariableOutcomes, handler)
  | first :: rest, handler, addVariableOutcomes =>
    let r := self.AddVariablePair handler first
    AddVariables.loop self rest r.2 (addVariableOutcomes ++ [r.1])

/-- Member template `AddVariables(first, last)`.  Returns the vector of
outcomes and the handler state afterwards. -/
def AddVariables (self : GraphVariableManagerRequests VariableId Pair Outcome η)
    (handler : η) (range : List Pair) : List Outcome × η :=
  AddVariables.loop self range handler []

/-- The call sequence `AddVariables` is measured against: `AddVariablePair`
called once per element of the range, in range order, each call on the handler
state the call before it left.  Returns the outcomes of the calls in order and
the handler state after the last call. -/
def addEach (self : GraphVariableManagerRequests VariableId Pair Outcome η) :
    η → List Pair → List Outcome × η
  | handler, [] => ([], handler)
  | handler, first :: rest =>
    let r := self.AddVariablePair handler first
    let t := addEach self r.2 rest
    (r.1 :: t.1, t.2)

end GraphVariableManagerRequests

/-- A handler for examples: the state is the list of live variable ids,
`RemoveVariable` erases the id when it is present, `AddVariablePair` adds an
id when it is not yet present. -/
def listHandler : GraphVariableManagerRequests Nat Nat (Except String Nat) (List Nat) where
  AddVariablePair := fun vars p =>
    if p ∈ vars then (Except.error "duplicate", vars) else (Except.ok p, vars ++ [p])
  RemoveVariable := fun vars id => (decide (id ∈ vars), vars.erase id)

end ScriptCanvas

/-! ## Theorems -/

namespace MCore

open AttributeInt32

/-- Decoding the object representation of an `int32` gives the value back. -/
theorem int32OfBytes_int32ToBytes (host : EEndianType) (v : Int) (hv : IsInt32 v) :
    int32OfBytes host (int32ToBytes host v) = v := by
  obtain ⟨h1, h2⟩ := hv
  simp only [INT32_MIN, INT32_MAX] at h1 h2
  cases host <;>
    simp only [int32OfBytes, int32ToBytes, toInt32, List.getD_cons_zero, List.getD_cons_succ] <;>
    omega

/-- The bytes `WriteData` hands to the stream are the representation of the
value in the target byte order, whatever the host byte order is. -/
theorem ConvertSignedInt32To_int32ToBytes (host e : EEndianType) (v : Int) :
    Endian.ConvertSignedInt32To host (int32ToBytes host v) e = int32ToBytes e v := by
  cases host <;> cases e <;> simp [Endian.ConvertSignedInt32To, int32ToBytes]

/-- Converting the bytes of the target byte order back to host order and
loading them gives the value that was stored. -/
theorem int32OfBytes_ConvertSignedInt32 (host e : EEndianType) (v : Int) (hv : IsInt32 v) :
    int32OfBytes host (Endian.ConvertSignedInt32 host (int32ToBytes e v) e) = v := by
  have key : Endian.ConvertSignedInt32 host (int32ToBytes e v) e = int32ToBytes host v := by
    cases host <;> cases e <;> simp [Endian.ConvertSignedInt32, int32ToBytes]
  rw [key]
  exact int32OfBytes_int32ToBytes host v hv

/-- An `int32` occupies four bytes. -/
theorem int32ToBytes_length (e : EEndianType) (v : Int) : (int32ToBytes e v).length = 4 := by
  cases e <;> simp [int32ToBytes]

/-- The shape of `ReadData`: it fails exactly on a zero byte count and then
returns the attribute it was given. -/
theorem ReadData_fst_eq_false_iff {σ : Type} (host : EEndianType) (ops : Stream σ)
    (self : AttributeInt32) (stream : σ) (uninit : List Nat) (e : EEndianType) (version : Nat) :
    (ReadData host ops self stream uninit e version).1 = false ↔
      (ops.Read stream uninit sizeofInt32).1 = 0 := by
  unfold ReadData
  by_cases h : (ops.Read stream uninit sizeofInt32).1 = 0 <;> simp [h]

/-- The shape of `WriteData`: it fails exactly on a zero byte count. -/
theorem WriteData_eq {σ : Type} (host : EEndianType) (ops : Stream σ)
    (self : AttributeInt32) (stream : σ) (e : EEndianType) :
    WriteData host ops self stream e =
      (decide ((ops.Write stream (int32ToBytes e self.mValue) sizeofInt32).1 ≠ 0),
        (ops.Write stream (int32ToBytes e self.mValue) sizeofInt32).2) := by
  unfold WriteData
  rw [ConvertSignedInt32To_int32ToBytes]
  by_cases h : (ops.Write stream (int32ToBytes e self.mValue) sizeofInt32).1 = 0 <;> simp [h]

/-- Claim C1.  Write/read round trip through a byte buffer: for every host byte
order, every stream endianness `e`, every attribute `writer` holding an int32
and every attribute `reader` (whatever it holds, whatever the version and the
content of the local before the read), when the buffer has room for the four
bytes and its read cursor stands where they land, `WriteData` returns true,
`ReadData` on the written buffer returns true, and the reader then holds
exactly the value of the writer. -/
theorem WriteData_ReadData_roundtrip (host e : EEndianType) (writer reader : AttributeInt32)
    (s : ByteBuffer) (uninit : List Nat) (version : Nat)
    (hv : IsInt32 writer.GetValue)
    (hroom : s.bytes.length + writer.GetDataSize ≤ s.capacity)
    (hpos : s.readPos = s.bytes.length) :
    (WriteData host ByteBuffer.stream writer s e).1 = true ∧
    (ReadData host ByteBuffer.stream reader
        (WriteData host ByteBuffer.stream writer s e).2 uninit e version).1 = true ∧
    (ReadData host ByteBuffer.stream reader
        (WriteData host ByteBuffer.stream writer s e).2 uninit e version).2.1.GetValue
      = writer.GetValue := by
  have hlen := int32ToBytes_length e writer.mValue
  have hv' : IsInt32 writer.mValue := hv
  simp only [GetDataSize, sizeofInt32] at hroom
  have hput : ((int32ToBytes e writer.mValue).take 4).take (s.capacity - s.bytes.length)
      = int32ToBytes e writer.mValue := by
    have h4 : (int32ToBytes e writer.mValue).take 4 = int32ToBytes e writer.mValue :=
      List.take_of_length_le (by omega)
    rw [h4]
    exact List.take_of_length_le (by omega)
  have hw : ByteBuffer.stream.Write s (int32ToBytes e writer.mValue) sizeofInt32
      = (4, { s with bytes := s.bytes ++ int32ToBytes e writer.mValue }) := by
    simp only [ByteBuffer.stream, ByteBuffer.Write, sizeofInt32, hput, hlen]
  have hgot : (((s.bytes ++ int32ToBytes e writer.mValue).drop s.readPos).take 4)
      = int32ToBytes e writer.mValue := by
    rw [hpos, List.drop_left, List.take_of_length_le (by omega)]
  rw [WriteData_eq, hw]
  refine ⟨by simp, ?_⟩
  have hr : (ReadData host ByteBuffer.stream reader
      { s with bytes := s.bytes ++ int32ToBytes e writer.mValue } uninit e version)
      = (true, { reader with mValue := writer.mValue },
          { s with bytes := s.bytes ++ int32ToBytes e writer.mValue, readPos := s.readPos + 4 }) := by
    simp only [ReadData, ByteBuffer.stream, ByteBuffer.Read, sizeofInt32, hgot, hlen]
    simp only [OfNat.ofNat_ne_zero, if_false, List.take_left' hlen]
    rw [int32OfBytes_ConvertSignedInt32 host e _ hv']
  rw [hr]
  exact ⟨rfl, rfl⟩

/-- Witness of C1: the value -7 written big-endian on a little-endian host into
an empty sixteen byte buffer and read back into an attribute holding 5. -/
theorem WriteData_ReadData_roundtrip_witness :
    IsInt32 (ctor (-7)).GetValue ∧
    (ReadData .ENDIAN_LITTLE ByteBuffer.stream (ctor 5)
        (WriteData .ENDIAN_LITTLE ByteBuffer.stream (ctor (-7)) ⟨[], 0, 16⟩ .ENDIAN_BIG).2
        [1, 2, 3, 4] .ENDIAN_BIG 0).2.1.GetValue = -7 :=
  ⟨by decide,
    (WriteData_ReadData_roundtrip .ENDIAN_LITTLE .ENDIAN_BIG (ctor (-7)) (ctor 5) ⟨[], 0, 16⟩
      [1, 2, 3, 4] 0 (by decide) (by decide) rfl).2.2⟩

/-- Counterexample to C2 as stated: a buffer that holds only two bytes yields
two of the four requested bytes, and `ReadData` returns true. -/
theorem ReadData_short_read_returns_true :
    (ByteBuffer.stream.Read ⟨[42, 0], 0, 16⟩ [0, 0, 1, 0] (ctor 5).GetDataSize).1 = 2 ∧
    (ReadData .ENDIAN_LITTLE ByteBuffer.stream (ctor 5) ⟨[42, 0], 0, 16⟩ [0, 0, 1, 0]
      .ENDIAN_LITTLE 0).1 = true := by
  decide

/-- Claim C2, amended.  For every attribute, every stream, every content of the
local, every endianness and every version, `ReadData` returns false exactly
when the `Read` of the `GetDataSize()` bytes returns the byte count 0; any other
byte count, also one below four, makes it return true. -/
theorem ReadData_fails_iff_read_returns_zero {σ : Type} (host : EEndianType) (ops : Stream σ)
    (self : AttributeInt32) (stream : σ) (uninit : List Nat) (e : EEndianType) (version : Nat) :
    ((ReadData host ops self stream uninit e version).1 = false ↔
      (ops.Read stream uninit self.GetDataSize).1 = 0) ∧
    ((ReadData host ops self stream uninit e version).1 = true ↔
      (ops.Read stream uninit self.GetDataSize).1 ≠ 0) := by
  have h : (ReadData host ops self stream uninit e version).1 = false ↔
      (ops.Read stream uninit self.GetDataSize).1 = 0 :=
    ReadData_fst_eq_false_iff host ops self stream uninit e version
  refine ⟨h, ?_⟩
  rw [← not_iff_not, Bool.not_eq_true, h, not_not]

/-- Claim C3.  `ReadData` is atomic on failure: for every attribute, stream,
content of the local, endianness and version, if `ReadData` returns false then
the attribute afterwards is the attribute before, so `GetValue()` is still the
old value; and if it returns true the new value is the one decoded from the
local buffer, the same whatever the attribute held before, so no byte of the
old value survives in it. -/
theorem ReadData_failure_keeps_value {σ : Type} (host : EEndianType) (ops : Stream σ)
    (self : AttributeInt32) (stream : σ) (uninit : List Nat) (e : EEndianType) (version : Nat) :
    ((ReadData host ops self stream uninit e version).1 = false →
      (ReadData host ops self stream uninit e version).2.1 = self ∧
      (ReadData host ops self stream uninit e version).2.1.GetValue = self.GetValue) ∧
    ((ReadData host ops self stream uninit e version).1 = true →
      ∀ other : AttributeInt32,
        (ReadData host ops other stream uninit e version).2.1.GetValue =
          (ReadData host ops self stream uninit e version).2.1.GetValue) := by
  constructor
  · intro hfail
    have h0 := (ReadData_fst_eq_false_iff host ops self stream uninit e version).1 hfail
    have : (ReadData host ops self stream uninit e version).2.1 = self := by
      unfold ReadData
      simp [h0]
    exact ⟨this, by rw [this]⟩
  · intro hok other
    have h0 : ¬ (ops.Read stream uninit sizeofInt32).1 = 0 := by
      intro h
      rw [(ReadData_fst_eq_false_iff host ops self stream uninit e version).2 h] at hok
      cases hok
    unfold ReadData
    simp [h0, GetValue]

/-- Witness of C3: reading from an empty byte buffer fails and the attribute
still holds 5; reading from a buffer of four bytes succeeds and gives the same
value to an attribute that held 5 and to one that held 8. -/
theorem ReadData_failure_keeps_value_witness :
    (ReadData .ENDIAN_LITTLE ByteBuffer.stream (ctor 5) ⟨[], 0, 16⟩ [9, 9, 9, 9]
      .ENDIAN_BIG 0).1 = false ∧
    (ReadData .ENDIAN_LITTLE ByteBuffer.stream (ctor 5) ⟨[], 0, 16⟩ [9, 9, 9, 9]
      .ENDIAN_BIG 0).2.1.GetValue = 5 ∧
    (ReadData .ENDIAN_LITTLE ByteBuffer.stream (ctor 8) ⟨[0, 0, 1, 2], 0, 16⟩ [9, 9, 9, 9]
      .ENDIAN_BIG 0).2.1.GetValue =
    (ReadData .ENDIAN_LITTLE ByteBuffer.stream (ctor 5) ⟨[0, 0, 1, 2], 0, 16⟩ [9, 9, 9, 9]
      .ENDIAN_BIG 0).2.1.GetValue :=
  ⟨by decide,
    ((ReadData_failure_keeps_value .ENDIAN_LITTLE ByteBuffer.stream (ctor 5) ⟨[], 0, 16⟩
      [9, 9, 9, 9] .ENDIAN_BIG 0).1 (by decide)).2,
    (ReadData_failure_keeps_value .ENDIAN_LITTLE ByteBuffer.stream (ctor 5) ⟨[0, 0, 1, 2], 0, 16⟩
      [9, 9, 9, 9] .ENDIAN_BIG 0).2 (by decide) (ctor 8)⟩

/-- Counterexample to C4 as stated: a buffer with room for two bytes accepts
two of the four bytes, and `WriteData` returns true. -/
theorem WriteData_short_write_returns_true :
    (ByteBuffer.stream.Write ⟨[], 0, 2⟩ (int32ToBytes .ENDIAN_BIG (ctor (-7)).GetValue)
      (ctor (-7)).GetDataSize).1 = 2 ∧
    (WriteData .ENDIAN_LITTLE ByteBuffer.stream (ctor (-7)) ⟨[], 0, 2⟩ .ENDIAN_BIG).1 = true := by
  decide

/-- Claim C4, amended.  For every attribute, stream and endianness, `WriteData`
issues one `Write` of `GetDataSize() = 4` bytes, the bytes being the value in
the target byte order, leaves the stream as that `Write` left it, and returns
false exactly when the `Write` returns the byte count 0; any other byte count,
also one below four, makes it return true. -/
theorem WriteData_fails_iff_write_returns_zero {σ : Type} (host : EEndianType) (ops : Stream σ)
    (self : AttributeInt32) (stream : σ) (e : EEndianType) :
    self.GetDataSize = 4 ∧
    (int32ToBytes e self.GetValue).length = self.GetDataSize ∧
    (WriteData host ops self stream e).2 =
      (ops.Write stream (int32ToBytes e self.GetValue) self.GetDataSize).2 ∧
    ((WriteData host ops self stream e).1 = false ↔
      (ops.Write stream (int32ToBytes e self.GetValue) self.GetDataSize).1 = 0) ∧
    ((WriteData host ops self stream e).1 = true ↔
      (ops.Write stream (int32ToBytes e self.GetValue) self.GetDataSize).1 ≠ 0) := by
  refine ⟨rfl, int32ToBytes_length e _, ?_, ?_, ?_⟩ <;>
    rw [WriteData_eq] <;> simp [GetDataSize, GetValue]

/-- Claim C5.  `InitFrom` succeeds exactly on a type match: it returns false if
and only if the type of `other` differs from `TYPE_ID = 2`, which is the type of
every constructed `AttributeInt32`; when the types differ the target is
unchanged, and when they agree the target takes the value of `other` and keeps
its own type.  `other` is an input only. -/
theorem InitFrom_succeeds_iff_type_matches (self other : AttributeInt32) :
    TYPE_ID = 2 ∧
    (∀ v, (ctor v).GetType = TYPE_ID) ∧
    ((self.InitFrom other).1 = false ↔ other.GetType ≠ TYPE_ID) ∧
    (other.GetType ≠ TYPE_ID → self.InitFrom other = (false, self)) ∧
    (other.GetType = TYPE_ID →
      (self.InitFrom other).1 = true ∧
      (self.InitFrom other).2.GetValue = other.GetValue ∧
      (self.InitFrom other).2.GetType = self.GetType) := by
  refine ⟨rfl, fun _ => rfl, ?_, ?_, ?_⟩
  · by_cases h : other.GetType = TYPE_ID <;> simp [InitFrom, h]
  · intro h
    simp [InitFrom, h]
  · intro h
    rw [InitFrom, if_neg (not_not.mpr h)]
    exact ⟨rfl, rfl, rfl⟩

/-- Witness of C5: a target holding 5 refuses an attribute of type 3 and keeps
5, and accepts an `AttributeInt32` holding 9. -/
theorem InitFrom_succeeds_iff_type_matches_witness :
    (ctor 5).InitFrom { mTypeID := 3, mValue := 9 } = (false, ctor 5) ∧
    ((ctor 5).InitFrom (ctor 9)).1 = true ∧
    ((ctor 5).InitFrom (ctor 9)).2.GetValue = 9 :=
  ⟨(InitFrom_succeeds_iff_type_matches (ctor 5) { mTypeID := 3, mValue := 9 }).2.2.2.1 (by decide),
    ((InitFrom_succeeds_iff_type_matches (ctor 5) (ctor 9)).2.2.2.2 (by decide)).1,
    ((InitFrom_succeeds_iff_type_matches (ctor 5) (ctor 9)).2.2.2.2 (by decide)).2.1⟩

end MCore

namespace AzFramework.StringFunc

/-- The value of a digit run with one more leading digit. -/
theorem decimalValue_cons (c : Char) (cs : List Char) :
    decimalValue (c :: cs) = decimalValue cs + 10 ^ cs.length * digitValue c := by
  simp [decimalValue, Nat.ofDigits_append, Nat.ofDigits_singleton]

/-- On a run of digits the scanner succeeds with the value of the run on top
of the accumulator. -/
theorem scanDigits_of_digits (cs : List Char) (acc : Nat)
    (h : ∀ c ∈ cs, c.isDigit = true) :
    scanDigits cs acc = some (acc * 10 ^ cs.length + decimalValue cs) := by
  induction cs generalizing acc with
  | nil => simp [scanDigits, decimalValue]
  | cons c cs ih =>
    have hc : c.isDigit = true := h c (List.mem_cons_self c cs)
    have hcs : ∀ d ∈ cs, d.isDigit = true := fun d hd => h d (List.mem_cons_of_mem c hd)
    rw [scanDigits, if_pos hc, ih _ hcs, decimalValue_cons, List.length_cons]
    congr 1
    ring

/-- The scanner succeeds only on a run of digits. -/
theorem digits_of_scanDigits (cs : List Char) (acc n : Nat)
    (h : scanDigits cs acc = some n) : ∀ c ∈ cs, c.isDigit = true := by
  induction cs generalizing acc with
  | nil => simp
  | cons c cs ih =>
    rw [scanDigits] at h
    by_cases hc : c.isDigit = true
    · rw [if_pos hc] at h
      intro d hd
      rcases List.mem_cons.1 hd with rfl | hd
      · exact hc
      · exact ih _ h d hd
    · rw [if_neg hc] at h
      cases h

/-- The minus sign is not a digit. -/
theorem minus_not_isDigit : ('-' : Char).isDigit = false := by decide

/-- The plus sign is not a digit. -/
theorem plus_not_isDigit : ('+' : Char).isDigit = false := by decide

/-- The parser accepts every text of the grammar with the integer it denotes. -/
theorem parseDecimal_of_denotes (text : String) (n : Int) (h : DenotesInt text n) :
    parseDecimal text.data = some n := by
  obtain ⟨digits, hne, hall, h | h | h⟩ := h
  · obtain ⟨hd, hn⟩ := h
    rw [hd]
    cases digits with
    | nil => exact absurd rfl hne
    | cons c cs =>
      have hdig := hall c (List.mem_cons_self c cs)
      have hc : c ≠ '-' := by
        intro hEq
        rw [hEq, minus_not_isDigit] at hdig
        cases hdig
      have hp : c ≠ '+' := by
        intro hEq
        rw [hEq, plus_not_isDigit] at hdig
        cases hdig
      rw [parseDecimal, if_neg hc, if_neg hp, scanDigits_of_digits _ _ hall, hn]
      simp
  · obtain ⟨hd, hn⟩ := h
    rw [hd, parseDecimal, if_pos rfl, if_neg hne, scanDigits_of_digits _ _ hall, hn]
    simp
  · obtain ⟨hd, hn⟩ := h
    have hpm : ('+' : Char) ≠ '-' := by decide
    rw [hd, parseDecimal, if_neg hpm, if_pos rfl, if_neg hne, scanDigits_of_digits _ _ hall, hn]
    simp

/-- The parser accepts only texts of the grammar. -/
theorem denotes_of_parseDecimal (text : String) (n : Int)
    (h : parseDecimal text.data = some n) : DenotesInt text n := by
  cases hd : text.data with
  | nil => rw [hd, parseDecimal] at h; cases h
  | cons c cs =>
    rw [hd, parseDecimal] at h
    by_cases hc : c = '-'
    · rw [if_pos hc] at h
      by_cases hcs : cs = []
      · rw [if_pos hcs] at h; cases h
      · rw [if_neg hcs] at h
        cases hs : scanDigits cs 0 with
        | none => rw [hs] at h; cases h
        | some m =>
          have hall := digits_of_scanDigits cs 0 m hs
          rw [scanDigits_of_digits cs 0 hall] at h
          refine ⟨cs, hcs, hall, Or.inr (Or.inl ⟨by rw [hd, hc], ?_⟩)⟩
          simp at h
          exact h.symm
    · rw [if_neg hc] at h
      by_cases hp : c = '+'
      · rw [if_pos hp] at h
        by_cases hcs : cs = []
        · rw [if_pos hcs] at h; cases h
        · rw [if_neg hcs] at h
          cases hs : scanDigits cs 0 with
          | none => rw [hs] at h; cases h
          | some m =>
            have hall := digits_of_scanDigits cs 0 m hs
            rw [scanDigits_of_digits cs 0 hall] at h
            refine ⟨cs, hcs, hall, Or.inr (Or.inr ⟨by rw [hd, hp], ?_⟩)⟩
            simp at h
            exact h.symm
      · rw [if_neg hp] at h
        cases hs : scanDigits (c :: cs) 0 with
        | none => rw [hs] at h; cases h
        | some m =>
          have hall := digits_of_scanDigits (c :: cs) 0 m hs
          rw [scanDigits_of_digits (c :: cs) 0 hall] at h
          refine ⟨c :: cs, List.cons_ne_nil c cs, hall, Or.inl ⟨hd, ?_⟩⟩
          simp at h
          exact h.symm

/-- Well-formed texts are the texts the parser accepts. -/
theorem wellFormedInt_iff (text : String) :
    WellFormedInt text ↔ (parseDecimal text.data).isSome = true := by
  constructor
  · rintro ⟨n, hn⟩
    rw [parseDecimal_of_denotes text n hn]
    rfl
  · intro h
    obtain ⟨n, hn⟩ := Option.isSome_iff_exists.1 h
    exact ⟨n, denotes_of_parseDecimal text n hn⟩

/-- The characters `Nat.digitChar` gives for 0 to 9 are the decimal digits. -/
theorem digitChar_isDigit (d : Nat) (h : d < 10) :
    (Nat.digitChar d).isDigit = true ∧ digitValue (Nat.digitChar d) = d := by
  interval_cases d <;> decide

/-- The digit loop behind `toString` puts the digits of `n` in front of `ds`. -/
theorem toDigitsCore_spec (fuel n : Nat) (ds : List Char) (hfuel : n < fuel)
    (hds : ∀ c ∈ ds, c.isDigit = true) :
    Nat.toDigitsCore 10 fuel n ds ≠ [] ∧
    (∀ c ∈ Nat.toDigitsCore 10 fuel n ds, c.isDigit = true) ∧
    decimalValue (Nat.toDigitsCore 10 fuel n ds) = decimalValue ds + 10 ^ ds.length * n := by
  induction fuel generalizing n ds with
  | zero => omega
  | succ fuel ih =>
    have hd := digitChar_isDigit (n % 10) (Nat.mod_lt n (by decide))
    have hds' : ∀ c ∈ Nat.digitChar (n % 10) :: ds, c.isDigit = true := by
      intro c hc
      rcases List.mem_cons.1 hc with rfl | hc
      · exact hd.1
      · exact hds c hc
    rw [Nat.toDigitsCore]
    by_cases h0 : n / 10 = 0
    · simp only [h0, if_true]
      refine ⟨List.cons_ne_nil _ _, hds', ?_⟩
      have hn : n % 10 = n := Nat.mod_eq_of_lt (by omega)
      rw [decimalValue_cons, hd.2, hn]
    · simp only [if_neg h0]
      obtain ⟨a, b, c⟩ := ih (n / 10) (Nat.digitChar (n % 10) :: ds) (by omega) hds'
      refine ⟨a, b, ?_⟩
      rw [c, decimalValue_cons, hd.2, List.length_cons, pow_succ]
      conv_rhs => rw [← Nat.div_add_mod n 10]
      ring

/-- The digit loop behind `toString` puts no zero in front of a positive
number. -/
theorem toDigitsCore_head (fuel n : Nat) (ds : List Char) (hfuel : n < fuel) (hn : 0 < n) :
    (Nat.toDigitsCore 10 fuel n ds).head? ≠ some '0' := by
  induction fuel generalizing n ds with
  | zero => omega
  | succ fuel ih =>
    rw [Nat.toDigitsCore]
    by_cases h0 : n / 10 = 0
    · simp only [h0, if_true, List.head?_cons]
      have hlt : n < 10 := by omega
      have hmod : n % 10 = n := Nat.mod_eq_of_lt hlt
      rw [hmod]
      interval_cases n <;> decide
    · simp only [if_neg h0]
      exact ih (n / 10) _ (by omega) (by omega)

/-- The digits `toString` gives for a natural number: a run of digits without
leading zeros that denotes the number. -/
theorem toDigits_spec (m : Nat) :
    Nat.toDigits 10 m ≠ [] ∧ (∀ c ∈ Nat.toDigits 10 m, c.isDigit = true) ∧
    ((Nat.toDigits 10 m).head? = some '0' → Nat.toDigits 10 m = ['0']) ∧
    decimalValue (Nat.toDigits 10 m) = m := by
  obtain ⟨a, b, c⟩ := toDigitsCore_spec (m + 1) m [] (by omega) (by simp)
  refine ⟨a, b, ?_, ?_⟩
  · intro h
    rcases Nat.eq_zero_or_pos m with rfl | hpos
    · rfl
    · exact absurd h (toDigitsCore_head (m + 1) m [] (by omega) hpos)
  · rw [Nat.toDigits, c]
    simp [decimalValue]

/-- The text `formatD` produces is the canonical decimal text of the value. -/
theorem formatD_canonical (v : Int) : CanonicalInt (AZStd.formatD v) v := by
  cases v with
  | ofNat m =>
    obtain ⟨a, b, c, d⟩ := toDigits_spec m
    refine ⟨Nat.toDigits 10 m, a, b, c, Or.inl ⟨rfl, ?_⟩⟩
    rw [d]
    rfl
  | negSucc m =>
    obtain ⟨a, b, c, d⟩ := toDigits_spec (m + 1)
    refine ⟨Nat.toDigits 10 (m + 1), a, b, c, Or.inr ⟨rfl, ?_, Int.negSucc_lt_zero m⟩⟩
    rw [d]
    rfl

/-- A canonical text is a text of the grammar with the same denotation. -/
theorem CanonicalInt.denotes {text : String} {n : Int} (h : CanonicalInt text n) :
    DenotesInt text n := by
  obtain ⟨digits, hne, hall, _, h | h⟩ := h
  · exact ⟨digits, hne, hall, Or.inl h⟩
  · exact ⟨digits, hne, hall, Or.inr (Or.inl ⟨h.1, h.2.1⟩)⟩

/-- A string without a NUL character is its own C string. -/
theorem c_str_of_no_nul (s : String) (h : AZStd.NUL ∉ s.data) : AZStd.c_str s = s := by
  have hall : ∀ c ∈ s.data, (decide (c ≠ AZStd.NUL)) = true := by
    intro c hc
    simp only [decide_eq_true_eq]
    intro hEq
    exact h (hEq ▸ hc)
  have : s.data.takeWhile (fun c => decide (c ≠ AZStd.NUL)) = s.data :=
    List.takeWhile_eq_self_iff.2 hall
  simp only [AZStd.c_str, this]

/-- A text of the grammar has no NUL character. -/
theorem no_nul_of_denotes (text : String) (n : Int) (h : DenotesInt text n) :
    AZStd.NUL ∉ text.data := by
  have hnul : AZStd.NUL.isDigit = false := by decide
  have hdig : ∀ digits : List Char, (∀ c ∈ digits, c.isDigit = true) → AZStd.NUL ∉ digits := by
    intro digits hall hmem
    have := hall _ hmem
    rw [hnul] at this
    cases this
  obtain ⟨digits, _, hall, h | h | h⟩ := h
  · rw [h.1]
    exact hdig digits hall
  · rw [h.1]
    intro hmem
    rcases List.mem_cons.1 hmem with hEq | hmem
    · exact absurd hEq (by decide)
    · exact hdig digits hall hmem
  · rw [h.1]
    intro hmem
    rcases List.mem_cons.1 hmem with hEq | hmem
    · exact absurd hEq (by decide)
    · exact hdig digits hall hmem

end AzFramework.StringFunc

namespace MCore

open AttributeInt32 AzFramework.StringFunc

/-- Storing an integer of the `int32` range keeps it. -/
theorem toInt32_of_isInt32 (n : Int) (h : IsInt32 n) : toInt32 n = n := by
  obtain ⟨h1, h2⟩ := h
  simp only [INT32_MIN, INT32_MAX] at h1 h2
  simp only [toInt32]
  omega

/-- The result of storing is always in the `int32` range. -/
theorem isInt32_toInt32 (n : Int) : IsInt32 (toInt32 n) := by
  simp only [IsInt32, INT32_MIN, INT32_MAX, toInt32]
  omega

/-- When the C string of `s` denotes an `int32` the attribute takes that value. -/
theorem InitFromString_of_denotes (self : AttributeInt32) (s : String) (n : Int)
    (hs : DenotesInt (AZStd.c_str s) n) (hn : IsInt32 n) :
    self.InitFromString s = (true, { self with mValue := n }) := by
  simp only [InitFromString, LooksLikeInt, parseDecimal_of_denotes _ n hs,
    toInt32_of_isInt32 n hn]

/-- When the C string of `s` is outside the grammar the attribute is left as it
was. -/
theorem InitFromString_of_not_wellFormed (self : AttributeInt32) (s : String)
    (hs : ¬ WellFormedInt (AZStd.c_str s)) : self.InitFromString s = (false, self) := by
  have hnone : parseDecimal (AZStd.c_str s).data = none := by
    cases h : parseDecimal (AZStd.c_str s).data with
    | none => rfl
    | some n => exact absurd ⟨n, denotes_of_parseDecimal _ n h⟩ hs
  simp only [InitFromString, LooksLikeInt, hnone]

/-- Counterexample to C6 as stated, at two inputs.  The string made of 42, a
NUL character and abc is not a well-formed decimal integer, yet `c_str()` ends
at the NUL, the parser sees 42, and the result is true with the value 42.  The
text 2147483648 is a well-formed decimal integer, but the attribute does not
end up holding 2147483648, which no `int32` can hold. -/
theorem InitFromString_not_as_claimed :
    (¬ WellFormedInt "42\x00abc" ∧
      (ctor 5).InitFromString "42\x00abc" = (true, ctor 42)) ∧
    (DenotesInt "2147483648" 2147483648 ∧
      ¬ (((ctor 0).InitFromString "2147483648").1 = true ∧
          ((ctor 0).InitFromString "2147483648").2.GetValue = 2147483648)) :=
  ⟨⟨fun h => absurd ((wellFormedInt_iff "42\x00abc").1 h) (by decide), by decide⟩,
    ⟨denotes_of_parseDecimal "2147483648" 2147483648 (by decide), by decide⟩⟩

/-- Claim C6, amended.  `InitFromString` accepts only integer text and is atomic
on failure, the text being the C string of `s`, which is `s` up to its first
NUL character and `s` itself when it has none: for every attribute and every
string `s`, if that text is not a well-formed decimal integer (optional leading
sign, one or more digits, nothing else) it returns false and the attribute is
unchanged; if it is well-formed and the integer it denotes is in the `int32`
range it returns true and the value becomes that integer.  In particular the
text 42 gives true and the value 42, the text abc gives false and no change,
and the text +5 gives true and the value 5. -/
theorem InitFromString_accepts_integer_text (self : AttributeInt32) (s : String) :
    (AZStd.NUL ∉ s.data → AZStd.c_str s = s) ∧
    (¬ WellFormedInt (AZStd.c_str s) → self.InitFromString s = (false, self)) ∧
    (∀ n : Int, DenotesInt (AZStd.c_str s) n → IsInt32 n →
      (self.InitFromString s).1 = true ∧ (self.InitFromString s).2.GetValue = n) ∧
    self.InitFromString "42" = (true, self.SetValue 42) ∧
    self.InitFromString "abc" = (false, self) ∧
    self.InitFromString "+5" = (true, self.SetValue 5) := by
  refine ⟨c_str_of_no_nul s, InitFromString_of_not_wellFormed self s, ?_, rfl, rfl, rfl⟩
  intro n hs hn
  rw [InitFromString_of_denotes self s n hs hn]
  exact ⟨rfl, rfl⟩

/-- Witness of C6: an attribute holding 5 refuses the text 12x and keeps 5,
and takes the value -17 from the text -17. -/
theorem InitFromString_accepts_integer_text_witness :
    AZStd.c_str "12x" = "12x" ∧
    (ctor 5).InitFromString "12x" = (false, ctor 5) ∧
    ((ctor 5).InitFromString "-17").2.GetValue = -17 :=
  ⟨(InitFromString_accepts_integer_text (ctor 5) "12x").1 (by decide),
    (InitFromString_accepts_integer_text (ctor 5) "12x").2.1
      (fun h => absurd ((wellFormedInt_iff (AZStd.c_str "12x")).1 h) (by decide)),
    ((InitFromString_accepts_integer_text (ctor 5) "-17").2.2.1 (-17)
      (denotes_of_parseDecimal (AZStd.c_str "-17") (-17) (by decide)) (by decide)).2⟩

/-- Claim C7.  Text round trip: for every `int32` value `v`, `ConvertToString`
on an attribute holding `v` returns true and produces the canonical decimal
text of `v` (optional leading minus sign, digits only, no leading zeros), and
`InitFromString` of that text on any attribute returns true and sets its value
to `v`.  The value -7 gives the text -7; 0, `INT32_MIN` and `INT32_MAX` give
their decimal texts. -/
theorem ConvertToString_InitFromString_roundtrip (self reader : AttributeInt32)
    (out : String) (hv : IsInt32 self.GetValue) :
    (self.ConvertToString out).1 = true ∧
    CanonicalInt (self.ConvertToString out).2 self.GetValue ∧
    DenotesInt (self.ConvertToString out).2 self.GetValue ∧
    (reader.InitFromString (self.ConvertToString out).2).1 = true ∧
    (reader.InitFromString (self.ConvertToString out).2).2.GetValue = self.GetValue ∧
    (ctor (-7)).ConvertToString out = (true, "-7") ∧
    (ctor 0).ConvertToString out = (true, "0") ∧
    (ctor INT32_MIN).ConvertToString out = (true, "-2147483648") ∧
    (ctor INT32_MAX).ConvertToString out = (true, "2147483647") := by
  have hc : CanonicalInt (self.ConvertToString out).2 self.GetValue :=
    formatD_canonical self.mValue
  have hd : DenotesInt (self.ConvertToString out).2 self.GetValue := hc.denotes
  have hcs : AZStd.c_str (self.ConvertToString out).2 = (self.ConvertToString out).2 :=
    c_str_of_no_nul _ (no_nul_of_denotes _ _ hd)
  have hd' : DenotesInt (AZStd.c_str (self.ConvertToString out).2) self.GetValue := by
    rw [hcs]
    exact hd
  have h7 : AZStd.formatD (-7) = "-7" := by decide
  have h0 : AZStd.formatD 0 = "0" := by decide
  have hmin : AZStd.formatD INT32_MIN = "-2147483648" := by decide
  have hmax : AZStd.formatD INT32_MAX = "2147483647" := by decide
  refine ⟨rfl, hc, hd, ?_, ?_, congrArg (Prod.mk true) h7, congrArg (Prod.mk true) h0,
    congrArg (Prod.mk true) hmin, congrArg (Prod.mk true) hmax⟩
  · rw [InitFromString_of_denotes reader _ _ hd' hv]
  · rw [InitFromString_of_denotes reader _ _ hd' hv]
    rfl

/-- Witness of C7: `INT32_MIN` is rendered and read back into an attribute
holding 5. -/
theorem ConvertToString_InitFromString_roundtrip_witness :
    IsInt32 (ctor INT32_MIN).GetValue ∧
    ((ctor 5).InitFromString ((ctor INT32_MIN).ConvertToString "").2).2.GetValue = INT32_MIN :=
  ⟨by decide,
    (ConvertToString_InitFromString_roundtrip (ctor INT32_MIN) (ctor 5) "" (by decide)).2.2.2.2.1⟩

/-- The halving loop finds the binary logarithm: `2 ^ k ≤ n < 2 ^ (k + 1)`. -/
theorem floorLog2Loop_spec (fuel n : Nat) (hfuel : n ≤ fuel) (hn : n ≠ 0) :
    2 ^ floorLog2Loop fuel n ≤ n ∧ n < 2 ^ (floorLog2Loop fuel n + 1) := by
  induction fuel generalizing n with
  | zero => omega
  | succ fuel ih =>
    rw [floorLog2Loop]
    by_cases h2 : 2 ≤ n
    · rw [if_pos h2]
      obtain ⟨a, b⟩ := ih (n / 2) (by omega) (by omega)
      rw [pow_succ] at b
      rw [pow_succ, pow_succ, pow_succ]
      generalize 2 ^ floorLog2Loop fuel (n / 2) = p at a b
      constructor <;> omega
    · rw [if_neg h2]
      constructor <;> simp <;> omega

/-- An integer is its own nearest integer. -/
theorem roundHalfEven_intCast (k : Int) : roundHalfEven (k : ℚ) = k := by
  simp [roundHalfEven]

/-- The binary exponent of a nonzero integer is the logarithm of its size. -/
theorem binaryExponent_intCast (v : Int) (hv : v ≠ 0) :
    binaryExponent (v : ℚ) = (floorLog2 v.natAbs : Int) := by
  have hspec := (floorLog2Loop_spec v.natAbs v.natAbs le_rfl (by simpa using hv)).1
  have h1 : floorLog2 1 = 0 := rfl
  have hle : (2 : ℚ) ^ ((floorLog2 v.natAbs : Int)) ≤ |(v : ℚ)| := by
    rw [zpow_natCast, ← Int.cast_abs, Int.abs_eq_natAbs]
    exact_mod_cast hspec
  simp only [binaryExponent, Rat.num_intCast, Rat.den_intCast, h1, Nat.cast_zero, sub_zero]
  rw [if_pos hle]

/-- Every integer of size at most `2 ^ 24` is a `float`: converting it is
exact. -/
theorem roundF32_intCast (v : Int) (hv : v.natAbs ≤ 16777216) : roundF32 (v : ℚ) = v := by
  by_cases h0 : v = 0
  · subst h0
    simp [roundF32]
  have hq : (v : ℚ) ≠ 0 := by exact_mod_cast h0
  obtain ⟨hlo, _⟩ := floorLog2Loop_spec v.natAbs v.natAbs le_rfl (by simpa using h0)
  have hL24 : floorLog2 v.natAbs ≤ 24 := by
    by_contra hcon
    have h25 : 2 ^ 25 ≤ 2 ^ floorLog2 v.natAbs :=
      Nat.pow_le_pow_right (by decide) (by omega)
    have : 2 ^ floorLog2 v.natAbs ≤ 16777216 := le_trans hlo hv
    omega
  have hk : ∃ k : Int, (v : ℚ) / 2 ^ ((floorLog2 v.natAbs : Int) - 23) = k := by
    rcases Nat.lt_or_ge (floorLog2 v.natAbs) 24 with h | h
    · refine ⟨v * 2 ^ (23 - floorLog2 v.natAbs), ?_⟩
      have hpow : (2 : ℚ) ^ ((floorLog2 v.natAbs : Int) - 23)
          = ((2 : ℚ) ^ (23 - floorLog2 v.natAbs))⁻¹ := by
        rw [← zpow_natCast, ← zpow_neg]
        congr 1
        omega
      rw [hpow, div_inv_eq_mul]
      push_cast
      rfl
    · have hL : floorLog2 v.natAbs = 24 := by omega
      have hlo' : 2 ^ 24 ≤ v.natAbs := by
        have := hlo
        rw [show floorLog2Loop v.natAbs v.natAbs = 24 from hL] at this
        exact this
      have habs : v.natAbs = 16777216 := by omega
      rw [hL]
      rcases Int.natAbs_eq v with hv' | hv'
      · refine ⟨8388608, ?_⟩
        rw [hv', habs]
        norm_num
      · refine ⟨-8388608, ?_⟩
        rw [hv', habs]
        norm_num
  obtain ⟨k, hk⟩ := hk
  rw [roundF32, if_neg hq]
  simp only
  rw [binaryExponent_intCast v h0, max_eq_left (by omega), hk, roundHalfEven_intCast, ← hk,
    div_mul_cancel₀ _ (zpow_ne_zero _ (two_ne_zero))]

/-- The cast discards the fractional part: the result is the integer next to
`q` on the side of zero. -/
theorem truncate_toward_zero (q : ℚ) :
    |((truncate q : Int) : ℚ)| ≤ |q| ∧ |q| < |((truncate q : Int) : ℚ)| + 1 ∧
    (0 ≤ q → 0 ≤ truncate q) ∧ (q ≤ 0 → truncate q ≤ 0) := by
  by_cases h : 0 ≤ q
  · have hf : 0 ≤ ⌊q⌋ := Int.floor_nonneg.2 h
    have hfq : (0 : ℚ) ≤ (⌊q⌋ : ℚ) := by exact_mod_cast hf
    simp only [truncate, if_pos h]
    rw [abs_of_nonneg hfq, abs_of_nonneg h]
    refine ⟨Int.floor_le q, Int.lt_floor_add_one q, fun _ => hf, ?_⟩
    intro hq
    have : q = 0 := le_antisymm hq h
    rw [this]
    simp
  · have hlt : q < 0 := lt_of_not_ge h
    have hc : ⌈q⌉ ≤ 0 := Int.ceil_le.2 (by exact_mod_cast hlt.le)
    have hcq : ((⌈q⌉ : Int) : ℚ) ≤ 0 := by exact_mod_cast hc
    simp only [truncate, if_neg h]
    rw [abs_of_nonpos hcq, abs_of_neg hlt]
    refine ⟨?_, ?_, fun h0 => absurd h0 h, fun _ => hc⟩
    · have := Int.le_ceil q
      linarith
    · have := Int.ceil_lt_add_one q
      linarith

/-- The shape of `Scale`: defined exactly when the truncated `float` product is
an `int32`, and then that is the value stored. -/
theorem Scale_eq_some_iff (self r : AttributeInt32) (f : ℚ) :
    self.Scale f = some r ↔
      IsInt32 (truncate (roundF32 (roundF32 (self.mValue : ℚ) * f))) ∧
      r = { self with mValue := truncate (roundF32 (roundF32 (self.mValue : ℚ) * f)) } := by
  unfold Scale
  by_cases h : IsInt32 (truncate (roundF32 (roundF32 (self.mValue : ℚ) * f)))
  · simp [h, eq_comm]
  · simp [h]

/-- Counterexample to C8 as stated, at two inputs.  The factor 1.0 is a `float`
and the product of 16777217 and 1.0 is the `int32` 16777217, yet `Scale` stores
16777216, because 16777217 is not a `float`.  The `float` nearest to 1.4 times
5 truncates to 6, yet `Scale` stores 7, because the `float` product rounds up
to 7. -/
theorem Scale_not_truncated_exact_product :
    (roundF32 1 = 1 ∧
      truncate (((ctor 16777217).GetValue : ℚ) * 1) = 16777217 ∧
      IsInt32 (truncate (((ctor 16777217).GetValue : ℚ) * 1)) ∧
      (ctor 16777217).Scale 1 = some (ctor 16777216)) ∧
    (roundF32 (7 / 5) = 11744051 / 8388608 ∧
      truncate (((ctor 5).GetValue : ℚ) * roundF32 (7 / 5)) = 6 ∧
      IsInt32 (truncate (((ctor 5).GetValue : ℚ) * roundF32 (7 / 5))) ∧
      (ctor 5).Scale (roundF32 (7 / 5)) = some (ctor 7)) := by
  decide!

/-- Claim C8, amended.  `Scale` multiplies in single precision and truncates
toward zero: for every attribute holding `v` and every scale factor `f`,
`Scale(f)` is defined exactly when the `float` product of `v` converted to
`float` and `f`, truncated toward zero, is an `int32`, and then that is the
value afterwards, the type being kept; the truncation is toward zero, not to
nearest and not downward.  When `v` has size at most `2 ^ 24`, the exact
product `v * f` is a `float` and its truncation is an `int32`, the value
afterwards is the product `v * f` truncated toward zero.  In particular
`Scale(2.5)` on 4 gives 10, `Scale(0.1)` on 4 gives 0 and `Scale(0.5)` on -3
gives -1. -/
theorem Scale_multiplies_in_float_and_truncates (self : AttributeInt32) (f : ℚ) :
    (∀ r : AttributeInt32, self.Scale f = some r ↔
      IsInt32 (truncate (roundF32 (roundF32 (self.GetValue : ℚ) * f))) ∧
      r.GetValue = truncate (roundF32 (roundF32 (self.GetValue : ℚ) * f)) ∧
      r.GetType = self.GetType) ∧
    (∀ q : ℚ, |((truncate q : Int) : ℚ)| ≤ |q| ∧ |q| < |((truncate q : Int) : ℚ)| + 1 ∧
      (0 ≤ q → 0 ≤ truncate q) ∧ (q ≤ 0 → truncate q ≤ 0)) ∧
    (self.GetValue.natAbs ≤ 16777216 →
      roundF32 ((self.GetValue : ℚ) * f) = (self.GetValue : ℚ) * f →
      IsInt32 (truncate ((self.GetValue : ℚ) * f)) →
      self.Scale f = some (self.SetValue (truncate ((self.GetValue : ℚ) * f)))) ∧
    (ctor 4).Scale (5 / 2) = some (ctor 10) ∧
    (ctor 4).Scale (roundF32 (1 / 10)) = some (ctor 0) ∧
    (ctor (-3)).Scale (1 / 2) = some (ctor (-1)) := by
  refine ⟨?_, truncate_toward_zero, ?_, by decide!, by decide!, by decide!⟩
  · intro r
    rw [Scale_eq_some_iff]
    constructor
    · rintro ⟨h, rfl⟩
      exact ⟨h, rfl, rfl⟩
    · rintro ⟨h, hv, ht⟩
      refine ⟨h, ?_⟩
      cases r with
      | mk base value =>
        cases base with
        | mk tid =>
          simp only [GetValue, GetType, Attribute.GetType] at hv ht
          subst hv
          cases self with
          | mk sbase svalue =>
            cases sbase with
            | mk stid =>
              simp only at ht
              subst ht
              rfl
  · intro hsize hexact hrange
    rw [Scale_eq_some_iff]
    have hconv : roundF32 ((self.mValue : Int) : ℚ) = self.mValue := roundF32_intCast _ hsize
    have hprod : roundF32 (roundF32 (self.mValue : ℚ) * f) = (self.mValue : ℚ) * f := by
      rw [hconv]
      exact hexact
    rw [hprod]
    exact ⟨hrange, rfl⟩

/-- Witness of C8: 4 has size at most `2 ^ 24`, the product of 4 and 2.5 is the
`float` 10, and `Scale(2.5)` on 4 gives 10. -/
theorem Scale_multiplies_in_float_and_truncates_witness :
    (ctor 4).GetValue.natAbs ≤ 16777216 ∧
    roundF32 (((ctor 4).GetValue : ℚ) * (5 / 2)) = ((ctor 4).GetValue : ℚ) * (5 / 2) ∧
    IsInt32 (truncate (((ctor 4).GetValue : ℚ) * (5 / 2))) ∧
    truncate (((ctor 4).GetValue : ℚ) * (5 / 2)) = 10 ∧
    (ctor 4).Scale (5 / 2) =
      some ((ctor 4).SetValue (truncate (((ctor 4).GetValue : ℚ) * (5 / 2)))) :=
  ⟨by decide, by decide!, by decide!, by decide!,
    (Scale_multiplies_in_float_and_truncates (ctor 4) (5 / 2)).2.2.1 (by decide) (by decide!)
      (by decide!)⟩

/-- Reading through a pointer after `SetValue` through the same pointer. -/
theorem Heap.GetValue_SetValue_same (heap : Heap) (p : Nat) (x : Int) (self : AttributeInt32)
    (h : heap.objects[p]? = some self) : (heap.SetValue p x).GetValue p = some x := by
  have hp : p < heap.objects.length := (List.getElem?_eq_some_iff.1 h).1
  simp [Heap.SetValue, Heap.GetValue, h, hp, AttributeInt32.SetValue, AttributeInt32.GetValue]

/-- Reading through a pointer after `SetValue` through another pointer. -/
theorem Heap.GetValue_SetValue_other (heap : Heap) (p q : Nat) (x : Int) (hpq : p ≠ q) :
    (heap.SetValue p x).GetValue q = heap.GetValue q := by
  unfold Heap.SetValue
  cases h : heap.objects[p]? with
  | none => rfl
  | some self => simp [Heap.GetValue, List.getElem?_set_ne hpq]

/-- Claim C9.  `Clone` copies value and kind without aliasing: called on a live
attribute holding `v`, it returns a pointer to a new instance, different from
the source pointer and not live before, whose `GetType()` is `TYPE_ID = 2` and
whose `GetValue()` is `v`; the source still holds `v`; and after a `SetValue`
through either pointer the other object still holds `v` while the written one
holds the new value. -/
theorem Clone_copies_without_aliasing (heap : Heap) (this : Nat) (self : AttributeInt32)
    (hlive : heap.objects[this]? = some self) :
    ∃ (heap' : Heap) (clone : Nat),
      Clone heap this = some (heap', clone) ∧
      clone ≠ this ∧
      heap.objects[clone]? = none ∧
      heap'.GetType clone = some TYPE_ID ∧ TYPE_ID = 2 ∧
      heap'.GetValue clone = some self.GetValue ∧
      heap'.GetValue this = some self.GetValue ∧
      ∀ x : Int,
        (heap'.SetValue clone x).GetValue this = some self.GetValue ∧
        (heap'.SetValue clone x).GetValue clone = some x ∧
        (heap'.SetValue this x).GetValue clone = some self.GetValue ∧
        (heap'.SetValue this x).GetValue this = some x := by
  have hthis : this < heap.objects.length := (List.getElem?_eq_some_iff.1 hlive).1
  have hne : heap.objects.length ≠ this := by omega
  have hclone : (heap.objects ++ [ctor self.mValue])[heap.objects.length]?
      = some (ctor self.mValue) := by simp
  have hsrc : (heap.objects ++ [ctor self.mValue])[this]? = some self := by
    rw [List.getElem?_append_left hthis, hlive]
  have hgc : Heap.GetValue ⟨heap.objects ++ [ctor self.mValue]⟩ heap.objects.length
      = some self.GetValue := by
    simp only [Heap.GetValue, hclone]
    rfl
  have hgs : Heap.GetValue ⟨heap.objects ++ [ctor self.mValue]⟩ this = some self.GetValue := by
    simp only [Heap.GetValue, hsrc]
    rfl
  refine ⟨⟨heap.objects ++ [ctor self.mValue]⟩, heap.objects.length, ?_, hne, ?_, ?_, rfl,
    hgc, hgs, ?_⟩
  · simp only [Clone, hlive, Create]
  · exact List.getElem?_eq_none (le_refl _)
  · simp only [Heap.GetType, hclone]
    rfl
  · intro x
    refine ⟨?_, ?_, ?_, ?_⟩
    · rw [Heap.GetValue_SetValue_other _ _ _ _ hne, hgs]
    · exact Heap.GetValue_SetValue_same _ _ _ _ hclone
    · rw [Heap.GetValue_SetValue_other _ _ _ _ (Ne.symm hne), hgc]
    · exact Heap.GetValue_SetValue_same _ _ _ _ hsrc

/-- Witness of C9: cloning the second of two attributes, which holds 7, and
then writing 9 through the clone leaves 7 in the source. -/
theorem Clone_copies_without_aliasing_witness :
    (⟨[ctor 5, ctor 7]⟩ : Heap).objects[1]? = some (ctor 7) ∧
    ∃ (heap' : Heap) (clone : Nat),
      Clone ⟨[ctor 5, ctor 7]⟩ 1 = some (heap', clone) ∧
      heap'.GetValue clone = some 7 ∧
      (heap'.SetValue clone 9).GetValue 1 = some 7 := by
  refine ⟨by decide, ?_⟩
  obtain ⟨heap', clone, h1, _, _, _, _, h2, _, h3⟩ :=
    Clone_copies_without_aliasing ⟨[ctor 5, ctor 7]⟩ 1 (ctor 7) (by decide)
  exact ⟨heap', clone, h1, h2, (h3 9).1⟩

end MCore

namespace ScriptCanvas

open GraphVariableManagerRequests

variable {VariableId Pair Outcome η : Type}

/-- One call is recorded per element of the range. -/
theorem removeEach_length (self : GraphVariableManagerRequests VariableId Pair Outcome η)
    (handler : η) (range : List VariableId) :
    (removeEach self handler range).1.length = range.length := by
  induction range generalizing handler with
  | nil => rfl
  | cons first rest ih => simp [removeEach, ih]

/-- The loop adds the number of successful calls to the counter, in `size_t`. -/
theorem RemoveVariables_loop_eq (self : GraphVariableManagerRequests VariableId Pair Outcome η)
    (range : List VariableId) (handler : η) (count : Nat) (hcount : count < SIZE_T_MODULUS) :
    RemoveVariables.loop self range handler count =
      ((count + (removeEach self handler range).1.count true) % SIZE_T_MODULUS,
        (removeEach self handler range).2) := by
  induction range generalizing handler count with
  | nil => simp [RemoveVariables.loop, removeEach, Nat.mod_eq_of_lt hcount]
  | cons first rest ih =>
    rw [RemoveVariables.loop, ih _ _ (Nat.mod_lt _ (by decide))]
    cases h : (self.RemoveVariable handler first).1 <;>
      simp [removeEach, h, Nat.add_assoc, Nat.add_comm 1]

/-- Claim C10.  `RemoveVariables` returns the number of variables removed: for
every handler and every range shorter than the number of `size_t` values,
`RemoveVariable` is called once per element in range order, the result is the
number of those calls that returned true and the handler is left as the last
call left it; hence the result is at most the length of the range, is 0 for the
empty range, and is the length of the range when every call returned true. -/
theorem RemoveVariables_counts_removed
    (self : GraphVariableManagerRequests VariableId Pair Outcome η)
    (handler : η) (range : List VariableId) (hlen : range.length < SIZE_T_MODULUS) :
    (removeEach self handler range).1.length = range.length ∧
    RemoveVariables self handler range =
      ((removeEach self handler range).1.count true, (removeEach self handler range).2) ∧
    (RemoveVariables self handler range).1 ≤ range.length ∧
    RemoveVariables self handler [] = (0, handler) ∧
    ((∀ b ∈ (removeEach self handler range).1, b = true) →
      (RemoveVariables self handler range).1 = range.length) := by
  have hl := removeEach_length self handler range
  have hle : (removeEach self handler range).1.count true ≤ range.length := by
    rw [← hl]
    exact List.count_le_length _ _
  have heq : RemoveVariables self handler range =
      ((removeEach self handler range).1.count true, (removeEach self handler range).2) := by
    rw [RemoveVariables, RemoveVariables_loop_eq self range handler 0 (by decide),
      Nat.zero_add, Nat.mod_eq_of_lt (lt_of_le_of_lt hle hlen)]
  refine ⟨hl, heq, ?_, rfl, ?_⟩
  · rw [heq]
    exact hle
  · intro hall
    rw [heq]
    show (removeEach self handler range).1.count true = range.length
    rw [← hl]
    exact List.count_eq_length.2 (fun b hb => (hall b hb).symm)

/-- Witness of C10: from the live ids 1, 2, 3, 4 the range 2, 7, 2, 4 removes
two variables, and the range 1, 2 removes both of its ids. -/
theorem RemoveVariables_counts_removed_witness :
    listHandler.RemoveVariables [1, 2, 3, 4] [2, 7, 2, 4] = (2, [1, 3]) ∧
    (listHandler.RemoveVariables [1, 2, 3, 4] [1, 2]).1 = 2 :=
  ⟨(RemoveVariables_counts_removed listHandler [1, 2, 3, 4] [2, 7, 2, 4] (by decide)).2.1,
    (RemoveVariables_counts_removed listHandler [1, 2, 3, 4] [1, 2] (by decide)).2.2.2.2
      (by decide)⟩

/-- The loop appends the outcomes of the calls, in order, to the vector. -/
theorem AddVariables_loop_eq (self : GraphVariableManagerRequests VariableId Pair Outcome η)
    (range : List Pair) (handler : η) (outcomes : List Outcome) :
    AddVariables.loop self range handler outcomes =
      (outcomes ++ (addEach self handler range).1, (addEach self handler range).2) := by
  induction range generalizing handler outcomes with
  | nil => simp [AddVariables.loop, addEach]
  | cons first rest ih => simp [AddVariables.loop, addEach, ih]

/-- One outcome is recorded per element of the range. -/
theorem addEach_length (self : GraphVariableManagerRequests VariableId Pair Outcome η)
    (handler : η) (range : List Pair) :
    (addEach self handler range).1.length = range.length := by
  induction range generalizing handler with
  | nil => rfl
  | cons first rest ih => simp [addEach, ih]

/-- The outcome in slot `i` is the one `AddVariablePair` gives for the pair in
slot `i`, on the handler state the calls for the pairs before it left. -/
theorem addEach_getElem? (self : GraphVariableManagerRequests VariableId Pair Outcome η)
    (handler : η) (range : List Pair) (i : Nat) :
    (addEach self handler range).1[i]? =
      (range[i]?).map fun p =>
        (self.AddVariablePair (addEach self handler (range.take i)).2 p).1 := by
  induction range generalizing handler i with
  | nil => simp [addEach]
  | cons first rest ih =>
    cases i with
    | zero => simp [addEach]
    | succ i => simp [addEach, ih]

/-- Claim C11.  `AddVariables` returns one outcome per input, in order: for
every handler and every range, `AddVariablePair` is called once per pair in
range order, each call on the handler state the call before it left; the
vector returned has the length of the range, its element `i` is the outcome of
the call for pair `i` (so a failing pair leaves its failure in its slot and the
calls for the later pairs are still made), slots outside the range do not
exist, the handler is left as the last call left it, and the empty range gives
the empty vector and leaves the handler alone. -/
theorem AddVariables_one_outcome_per_pair
    (self : GraphVariableManagerRequests VariableId Pair Outcome η)
    (handler : η) (range : List Pair) :
    AddVariables self handler range = addEach self handler range ∧
    (AddVariables self handler range).1.length = range.length ∧
    (∀ i : Nat, (AddVariables self handler range).1[i]? =
      (range[i]?).map fun p =>
        (self.AddVariablePair (AddVariables self handler (range.take i)).2 p).1) ∧
    AddVariables self handler [] = ([], handler) := by
  have heq : ∀ (r : List Pair), AddVariables self handler r = addEach self handler r := by
    intro r
    rw [AddVariables, AddVariables_loop_eq, List.nil_append]
  refine ⟨heq range, ?_, ?_, rfl⟩
  · rw [heq, addEach_length]
  · intro i
    rw [heq, heq, addEach_getElem?]

/-- Witness of C11: adding the pairs 1, 1, 2 to an empty handler gives success,
failure, success in that order, and both 1 and 2 are added. -/
theorem AddVariables_one_outcome_per_pair_witness :
    listHandler.AddVariables [] [1, 1, 2] =
      ([Except.ok 1, Except.error "duplicate", Except.ok 2], [1, 2]) ∧
    (listHandler.AddVariables [] [1, 1, 2]).1.length = 3 :=
  ⟨(AddVariables_one_outcome_per_pair listHandler [] [1, 1, 2]).1.trans rfl,
    (AddVariables_one_outcome_per_pair listHandler [] [1, 1, 2]).2.1⟩

end ScriptCanvas
